import Mathlib

/-!
Verification development for the private-blockchain ledger
(`src/src/blockchain.js` and its collaborators).

The JavaScript source is shallowly embedded: every method of the
`Blockchain` class becomes a Lean function over an explicit `ChainState`;
a promise's settlement becomes an `Option (Except e a)` value: `some`
carries the first settlement (JavaScript promises settle at most once,
so a later `resolve`/`reject` call on an already settled promise is a
no-op), and `none` means the promise never settles — which really
happens in this source: `validateChain`'s executor binds only `resolve`,
so the `reject` call in its catch throws a ReferenceError and that
promise can hang, as can the operations awaiting it.

The companion file `block.js` (the `Block` class) is not part of the
sources; the pieces of it that the ledger calls — the constructor's
payload encoding, `getBData`, and `validate` — are modelled from the
specification and marked as such in their doc comments.

The content hash `SHA256(JSON.stringify(block))` is modelled by a
deterministic computable function `hashBlock` of the four fields the
stringified block carries at seal time (`height`, `previousBlockHash`,
`time`, `body`; the `hash` field itself is still null at that point).
No cryptographic property of SHA256 is assumed anywhere.
-/

/-- A block's decoded payload ("body" before encoding).
`plain d` models an object `\x7bdata: d\x7d` (the genesis payload);
`starData o s` models `\x7bowner: o, star: s\x7d`. -/
inductive BlockData where
  | plain (data : String)
  | starData (owner : String) (star : String)
deriving DecidableEq, Repr

/-- The `owner` field of a decoded payload; `none` models JavaScript
`undefined` (reading `.owner` off an object that has no such field). -/
def BlockData.owner : BlockData → Option String
  | .plain _ => none
  | .starData o _ => some o

/-- Modelled from the spec: the Record Codec's `encode` (in `block.js`,
which is not under `src/`): a total, deterministic encoding of a payload
to a transportable string (hex-of-JSON in the source).  Field strings are
length-prefixed so that `decode` can recover them. -/
def encode : BlockData → String
  | .plain d => "P" ++ toString d.length ++ ":" ++ d
  | .starData o s => "S" ++ toString o.length ++ ":" ++ o ++ s

/-- Numeric value of a list of decimal digit characters. -/
def digitsVal (ds : List Char) : Nat :=
  ds.foldl (fun a c => a * 10 + (c.toNat - 48)) 0

/-- Reads a leading run of decimal digits; fails when there is none. -/
def readNat (cs : List Char) : Option (Nat × List Char) :=
  let ds := cs.takeWhile Char.isDigit
  if ds.isEmpty then none else some (digitsVal ds, cs.drop ds.length)

/-- Modelled from the spec: the Record Codec's `decode` (in `block.js`,
which is not under `src/`): partial inverse of `encode`; malformed input
yields `none` (a `CodecError`). -/
def decode (s : String) : Option BlockData :=
  match s.data with
  | 'P' :: rest =>
    match readNat rest with
    | some (n, ':' :: payload) =>
      if payload.length = n then some (BlockData.plain (String.mk payload)) else none
    | _ => none
  | 'S' :: rest =>
    match readNat rest with
    | some (n, ':' :: payload) =>
      if n ≤ payload.length then
        some (BlockData.starData (String.mk (payload.take n)) (String.mk (payload.drop n)))
      else none
    | _ => none
  | _ => none

/-- A sealed block as stored in the chain array.  `time` is the
epoch-seconds value `new Date().getTime().toString().slice(0,-3)`;
`previousBlockHash = none` models the constructor's absent previous hash
(kept by the genesis block, for which `_addBlock` skips the assignment). -/
structure Block where
  height : Int
  body : String
  time : Int
  previousBlockHash : Option String
  hash : String
deriving DecidableEq, Repr

/-- Models `SHA256(JSON.stringify(block))` as computed at seal time: a
deterministic computable function of the four fields the block carries
when the hash is assigned (the `hash` field itself is still null then,
so it is excluded from the input). -/
def hashBlock (height : Int) (previousBlockHash : Option String) (time : Int)
    (body : String) : String :=
  "sha(" ++ toString height ++ "," ++
    (match previousBlockHash with
     | none => "null"
     | some h => "p" ++ h) ++ "," ++
    toString time ++ "," ++ body ++ ")"

/-- Modelled from the spec: `block.validate()` (in `block.js`, which is
not under `src/`): recomputes the content hash over the block's own
fields excluding `hash` and compares it with the stored `hash` (spec
section 4.3). -/
def Block.validateOk (b : Block) : Bool :=
  b.hash == hashBlock b.height b.previousBlockHash b.time b.body

/-- Modelled from the spec: `block.getBData()` (in `block.js`, which is
not under `src/`): decodes the block's body, yielding nothing for the
genesis block (height 0) and nothing on a decode failure (spec
section 4.2: decode failures are skipped, genesis is excluded). -/
def Block.getBData (b : Block) : Option BlockData :=
  if b.height = 0 then none else decode b.body

/-- One chain-integrity finding, as pushed into `errorLog` by
`validateChain` (`blockchain.js` lines 199-240).  `heightErr` carries the
expected height that the `critical` message interpolates. -/
inductive Finding where
  | heightErr (blockHeight : Int) (expected : Int)
  | linkErr (blockHeight : Int)
  | hashErr (blockHeight : Int)
deriving DecidableEq, Repr

/-- The findings `validateChain` pushes for a block `b` that has a
physically preceding block `prev` (loop body, `blockchain.js` lines
205-233): a height finding and a linkage finding, each guarded by
`b.height > 0`, then the recomputed-hash (tamper) finding. -/
def checksAfter (prev b : Block) : List Finding :=
  (if b.height > 0 ∧ b.height ≠ prev.height + 1
   then [Finding.heightErr b.height (prev.height + 1)] else []) ++
  (if b.height > 0 ∧ b.previousBlockHash ≠ some prev.hash
   then [Finding.linkErr b.height] else []) ++
  (if b.validateOk then [] else [Finding.hashErr b.height])

/-- The loop of `validateChain` from the second array entry on, carrying
the previous block. -/
def validateRest (prev : Block) : List Block → List Finding
  | [] => []
  | b :: rest => checksAfter prev b ++ validateRest b rest

/-- `validateChain` (`blockchain.js` lines 199-240).  At index 0 the two
guarded comparisons read `chain[-1]`, which is `undefined`; when the
first block's height is positive the guard passes and reading `.height`
off `undefined` throws.  The surrounding `catch` then calls `reject`,
but the executor (line 202) binds only `resolve`, so that call throws a
ReferenceError inside the catch handler and the promise NEVER settles —
modelled as `none`.  Otherwise only the tamper check runs at index 0,
the loop accumulates every finding without short-circuiting, and the
promise resolves with the list — modelled as `some`. -/
def validateChainRun (chain : List Block) : Option (List Finding) :=
  match chain with
  | [] => some []
  | g :: rest =>
    if g.height > 0 then none
    else some
      ((if g.validateOk then [] else [Finding.hashErr g.height]) ++ validateRest g rest)

/-- Rejection values of `_addBlock`: the string
`Block height discrepancy!` or the non-empty `errorLog` array.  There is
no rejection for a failing `validateChain`: that promise either resolves
or never settles, so `_addBlock`'s catch around the await is dead
code. -/
inductive AddErr where
  | heightDiscrepancy
  | validationFailed (errors : List Finding)
deriving DecidableEq, Repr

/-- The `Blockchain` instance state: the `chain` array and the cached
`height` field. -/
structure ChainState where
  chain : List Block
  height : Int
deriving DecidableEq, Repr

/-- The candidate block as `_addBlock` seals it (`blockchain.js` lines
72-79): height is the incremented chain height, the previous hash is the
last block's hash when the new height is positive (the constructor's
absent value remains for genesis), and the hash is computed here, once,
over the other four fields. -/
def sealBlock (st : ChainState) (data : String) (now : Int) : Block :=
  let newHeight := st.height + 1
  let prev : Option String :=
    if newHeight > 0 then (st.chain.get? (newHeight - 1).toNat).map Block.hash
    else none
  { height := newHeight, body := data, time := now,
    previousBlockHash := prev,
    hash := hashBlock newHeight prev now data }

/-- `_addBlock` (`blockchain.js` lines 67-91).  The settlement is an
`Option (Except AddErr Block)`: `none` means the promise never settles.
The height pre-check rejects with `Block height discrepancy!` but —
lacking a `return` — the executor keeps running: the height is still
incremented and, when `chain[newHeight-1]` exists, the candidate is
still sealed and pushed (the later `resolve`/`reject` calls are no-ops
on the settled promise).  When `chain[newHeight-1]` is `undefined`
(only possible when the pre-check already rejected) reading `.hash`
throws and nothing is pushed.  When `validateChain` never settles (its
first block has positive height) the await never completes, so the
promise stays pending unless the pre-check had already rejected it. -/
def _addBlock (st : ChainState) (data : String) (now : Int) :
    Option (Except AddErr Block) × ChainState :=
  let heightOk := (st.chain.length : Int) = st.height + 1
  let newHeight := st.height + 1
  if newHeight > 0 ∧ st.chain.get? (newHeight - 1).toNat = none then
    (some (Except.error AddErr.heightDiscrepancy), { st with height := newHeight })
  else
    let blk := sealBlock st data now
    let newChain := st.chain ++ [blk]
    let result : Option (Except AddErr Block) :=
      match validateChainRun newChain with
      | none =>
        if heightOk then none else some (Except.error AddErr.heightDiscrepancy)
      | some errs =>
        if heightOk then
          (if errs.length > 0 then some (Except.error (AddErr.validationFailed errs))
           else some (Except.ok blk))
        else some (Except.error AddErr.heightDiscrepancy)
    (result, { chain := newChain, height := newHeight })

/-- The genesis payload `\x7bdata: 'Genesis Block'\x7d`, encoded. -/
def genesisBody : String := encode (BlockData.plain "Genesis Block")

/-- `initializeChain` (`blockchain.js` lines 35-44): when the height is
still -1, add the genesis block (the result is discarded; a rejection is
only logged). -/
def initChain (st : ChainState) (now : Int) : ChainState :=
  if st.height = -1 then (_addBlock st genesisBody now).2 else st

/-- The state the `Blockchain` constructor builds: empty chain, height
-1, then `initializeChain`. -/
def mkBlockchain (now : Int) : ChainState :=
  initChain { chain := [], height := -1 } now

/-- `getChainHeight` (`blockchain.js` lines 49-53). -/
def getChainHeight (st : ChainState) : Int := st.height

/-- `parseInt` as `submitStar` uses it on the message's second
colon-separated piece: skip leading whitespace, optional sign, then a
non-empty run of decimal digits; `none` models `NaN` (every `<`
comparison against `NaN` is false). -/
def jsParseInt (s : String) : Option Int :=
  let cs := s.data.dropWhile Char.isWhitespace
  match cs with
  | '-' :: rest =>
    match readNat rest with
    | some (n, _) => some (-(n : Int))
    | none => none
  | '+' :: rest =>
    match readNat rest with
    | some (n, _) => some ((n : Int))
    | none => none
  | _ =>
    match readNat cs with
    | some (n, _) => some ((n : Int))
    | none => none

/-- `String.prototype.split` on a single-character separator, on the
character list of the string: `"a:b:c"` gives `["a","b","c"]`, a string
without the separator gives the one-piece list, a trailing separator
yields a trailing empty piece. -/
def splitOnChar (c : Char) : List Char → List (List Char)
  | [] => [[]]
  | x :: rest =>
    if x = c then [] :: splitOnChar c rest
    else
      match splitOnChar c rest with
      | [] => [[x]]
      | p :: ps => (x :: p) :: ps

/-- `parseInt(message.split(':')[1])` (`blockchain.js` line 127); a
missing piece models `parseInt(undefined) = NaN`. -/
def messageTime (message : String) : Option Int :=
  match (splitOnChar ':' message.data).get? 1 with
  | some piece => jsParseInt (String.mk piece)
  | none => none

/-- Rejection values of `submitStar`: the literal
`Error: Timed out or not verified.` (line 144, reached when the combined
freshness-and-signature condition is false), or the `_addBlock`
rejection propagated by the catch (line 141). -/
inductive SubmitErr where
  | timedOutOrNotVerified
  | addErr (e : AddErr)
deriving DecidableEq, Repr

/-- `submitStar` (`blockchain.js` lines 124-146).  The settlement is an
`Option (Except SubmitErr Block)`: `none` means the promise never
settles.  `verify` stands for the external
`bitcoinMessage.verify(message, address, signature)`; the `&&`
short-circuits, so `verify` is never consulted when the timelock test
fails.  The unconditional `reject` on line 144 is a no-op whenever the
`if` branch already settled the promise, so the first settlement is the
observable outcome; when the awaited `_addBlock` never settles, neither
that line nor anything else is reached and the promise stays pending.
The candidate block's body is the encoded
`\x7bowner: address, star: star\x7d` payload built by the `Block`
constructor. -/
def submitStar (st : ChainState) (verify : String → String → String → Bool)
    (address message signature star : String) (now : Int) :
    Option (Except SubmitErr Block) × ChainState :=
  let cond : Bool :=
    match messageTime message with
    | some mt => decide (now - mt < 300) && verify message address signature
    | none => false
  if cond then
    match _addBlock st (encode (BlockData.starData address star)) now with
    | (some (Except.ok b), st') => (some (Except.ok b), st')
    | (some (Except.error e), st') => (some (Except.error (SubmitErr.addErr e)), st')
    | (none, st') => (none, st')
  else (some (Except.error SubmitErr.timedOutOrNotVerified), st)

/-- `getBlockByHash` (`blockchain.js` lines 154-160):
`chain.filter(b => b.hash === hash)[0]`, resolving the first match and
rejecting with `false` when the filter is empty. -/
def getBlockByHash (st : ChainState) (h0 : String) : Except Bool Block :=
  match (st.chain.filter (fun b => b.hash == h0)).head? with
  | some b => Except.ok b
  | none => Except.error false

/-- `getBlockByHeight` (`blockchain.js` lines 167-173): selects by the
block's own `height` field, not by array position. -/
def getBlockByHeight (st : ChainState) (n : Int) : Except Bool Block :=
  match (st.chain.filter (fun b => b.height == n)).head? with
  | some b => Except.ok b
  | none => Except.error false

/-- `getStarsByWalletAddress` (`blockchain.js` lines 181-191): for each
block in chain order, decode its body via `getBData` and push it when
its `owner` field equals the address (`body && body.owner === address`;
a falsy/failed decode is skipped).  The source's `forEach(async ...)`
races its own `resolve`; the spec (section 9) fixes the sequential
semantics modelled here as the intended contract. -/
def getStarsByWalletAddress (st : ChainState) (address : String) : List BlockData :=
  st.chain.foldl
    (fun stars b =>
      match b.getBData with
      | some body => if body.owner = some address then stars ++ [body] else stars
      | none => stars)
    []

/-- The owner lookup exactly as claim C3 words it: the decoded payloads
of the non-genesis blocks whose `owner` field equals the address, in
chain order, blocks whose payload fails to decode being skipped. -/
def getPayloadsByOwnerClaim (chain : List Block) (address : String) : List BlockData :=
  (chain.filter (fun b => b.height != 0)).filterMap
    (fun b =>
      match decode b.body with
      | some d => if d.owner = some address then some d else none
      | none => none)

/-- Concatenation of `f k, f (k+1), ..., f (k+n-1)`: the findings an
index-driven single pass over a chain produces. -/
def indexFindingsFrom (f : Nat → List Finding) (k : Nat) : Nat → List Finding
  | 0 => []
  | n + 1 => f k ++ indexFindingsFrom f (k + 1) n

/-- The findings claim C8 attributes to index `i` of the chain: only
indices `i > 0` produce findings, and they produce a height finding on a
height discontinuity, a linkage finding on a previous-hash mismatch and
a tamper finding on a recomputed-hash mismatch, unconditionally on the
block's own height. -/
def claimedBlockFindings (chain : List Block) (i : Nat) : List Finding :=
  if i = 0 then []
  else
    match chain.get? i, chain.get? (i - 1) with
    | some b, some prev =>
      (if b.height ≠ prev.height + 1
       then [Finding.heightErr b.height (prev.height + 1)] else []) ++
      (if b.previousBlockHash ≠ some prev.hash
       then [Finding.linkErr b.height] else []) ++
      (if b.hash = hashBlock b.height b.previousBlockHash b.time b.body
       then [] else [Finding.hashErr b.height])
    | _, _ => []

/-- The full validator output as claim C8 states it. -/
def claimedFindings (chain : List Block) : List Finding :=
  indexFindingsFrom (claimedBlockFindings chain) 0 chain.length

/-- The findings the validator actually produces at index `i`: the
height and linkage findings are guarded by the block's own height being
positive (not by the index), and the tamper check runs at every index,
index 0 included. -/
def amendedBlockFindings (chain : List Block) (i : Nat) : List Finding :=
  match chain.get? i with
  | none => []
  | some b =>
    (if 0 < i then
      match chain.get? (i - 1) with
      | some prev =>
        (if b.height > 0 ∧ b.height ≠ prev.height + 1
         then [Finding.heightErr b.height (prev.height + 1)] else []) ++
        (if b.height > 0 ∧ b.previousBlockHash ≠ some prev.hash
         then [Finding.linkErr b.height] else [])
      | none => []
     else []) ++
    (if b.hash = hashBlock b.height b.previousBlockHash b.time b.body
     then [] else [Finding.hashErr b.height])

/-- The validator's behaviour as amended: a single index-driven
non-mutating pass accumulating `amendedBlockFindings` and resolving
with the list; when the block at index 0 has a positive height its
guard dereferences `chain[-1]`, the throw is caught, and the catch's
call to the unbound `reject` throws again, so the validation never
settles (`none`) and no finding list is produced at all. -/
def amendedFindings (chain : List Block) : Option (List Finding) :=
  match chain.head? with
  | none => some []
  | some g =>
    if g.height > 0 then none
    else some (indexFindingsFrom (amendedBlockFindings chain) 0 chain.length)

/-- States reachable by constructing the blockchain (genesis
initialization) followed by any sequence of successful `_addBlock`
calls. -/
inductive Reachable : ChainState → Prop where
  | init (now : Int) : Reachable (mkBlockchain now)
  | step (st : ChainState) (d : String) (now : Int) (b : Block) (st' : ChainState) :
      Reachable st → _addBlock st d now = (some (Except.ok b), st') → Reachable st'

/-- Well-formedness invariant of a ledger state: the cached height
matches the array length, index 0 holds the genesis block, heights equal
indices, adjacent blocks are linked, every stored hash is the content
hash of the block's other fields, and the chain passes validation. -/
structure WF (st : ChainState) : Prop where
  lenEq : (st.chain.length : Int) = st.height + 1
  genesis : ∃ g, st.chain.get? 0 = some g ∧ g.height = 0 ∧
    g.previousBlockHash = none ∧ g.body = genesisBody
  heights : ∀ i b, st.chain.get? i = some b → b.height = (i : Int)
  links : ∀ i prev b, st.chain.get? i = some prev → st.chain.get? (i + 1) = some b →
    b.previousBlockHash = some prev.hash ∧ b.height = prev.height + 1
  hashes : ∀ b ∈ st.chain, b.hash = hashBlock b.height b.previousBlockHash b.time b.body
  valid : validateChainRun st.chain = some []

/-- The last element of `p :: l`. -/
def lastD (p : Block) : List Block → Block
  | [] => p
  | x :: xs => lastD x xs

theorem lastD_get? (l : List Block) : ∀ p : Block, (p :: l).get? l.length = some (lastD p l) := by
  induction l with
  | nil => intro p; rfl
  | cons x xs ih => intro p; simpa [lastD] using ih x

theorem validateRest_append (l : List Block) :
    ∀ (p b : Block), validateRest p (l ++ [b]) = validateRest p l ++ checksAfter (lastD p l) b := by
  induction l with
  | nil => intro p b; simp [validateRest, lastD]
  | cons x xs ih => intro p b; simp [validateRest, lastD, ih x b]

/-- What a successful `_addBlock` settlement implies: the pre-check
passed, the returned block is the sealed candidate, the state is the
push of that candidate with the height advanced, and the post-append
validation came back clean. -/
theorem addBlock_ok_spec {st : ChainState} {d : String} {now : Int} {b : Block}
    {st' : ChainState} (h : _addBlock st d now = (some (Except.ok b), st')) :
    (st.chain.length : Int) = st.height + 1 ∧
    b = sealBlock st d now ∧
    st' = { chain := st.chain ++ [b], height := st.height + 1 } ∧
    validateChainRun (st.chain ++ [b]) = some [] := by
  simp only [_addBlock] at h
  split at h
  · exact absurd (congrArg Prod.fst h) (by simp)
  · split at h
    next heq =>
      split at h <;> exact absurd (congrArg Prod.fst h) (by simp)
    next errs heq =>
      split at h
      · split at h
        · exact absurd (congrArg Prod.fst h) (by simp)
        · next hOk hlen =>
          have hb : b = sealBlock st d now := by
            have := congrArg Prod.fst h
            simp at this
            exact this.symm
          have hst : st' = { chain := st.chain ++ [sealBlock st d now], height := st.height + 1 } := by
            have := congrArg Prod.snd h
            simpa using this.symm
          have herrs : errs = [] := by
            simpa using List.eq_nil_of_length_eq_zero (by omega)
          refine ⟨hOk, hb, ?_, ?_⟩
          · rw [hst, hb]
          · rw [hb]; rw [herrs] at heq; exact heq
      · exact absurd (congrArg Prod.fst h) (by simp)

/-- The genesis block the constructor seals at clock value `now`. -/
def genesisBlock (now : Int) : Block :=
  { height := 0, body := genesisBody, time := now, previousBlockHash := none,
    hash := hashBlock 0 none now genesisBody }

theorem mkBlockchain_eq (now : Int) :
    mkBlockchain now = { chain := [genesisBlock now], height := 0 } := by
  simp [mkBlockchain, initChain, _addBlock, sealBlock, validateChainRun, validateRest,
    Block.validateOk, genesisBlock]

theorem wf_mkBlockchain (now : Int) : WF (mkBlockchain now) := by
  rw [mkBlockchain_eq]
  refine ⟨by simp, ⟨genesisBlock now, by simp [genesisBlock]⟩, ?_, ?_, ?_, ?_⟩
  · intro i b h
    match i with
    | 0 => simp at h; rw [← h]; rfl
    | i + 1 => simp [List.get?] at h
  · intro i prev b hp hb
    match i with
    | 0 => simp [List.get?] at hb
    | i + 1 => simp [List.get?] at hb
  · intro b hb
    simp at hb
    rw [hb]; rfl
  · simp [validateChainRun, validateRest, Block.validateOk, genesisBlock]

theorem wf_step {st : ChainState} {d : String} {now : Int} {b : Block} {st' : ChainState}
    (hwf : WF st) (h : _addBlock st d now = (some (Except.ok b), st')) : WF st' := by
  obtain ⟨hlen, hb, hst, hval⟩ := addBlock_ok_spec h
  obtain ⟨g, hg0, hgh, hgp, hgb⟩ := hwf.genesis
  obtain ⟨rest, hcons⟩ : ∃ rest, st.chain = g :: rest := by
    cases hc : st.chain with
    | nil => rw [hc] at hg0; simp at hg0
    | cons a l =>
      rw [hc] at hg0
      simp at hg0
      exact ⟨l, by rw [hg0]⟩
  have hlenc : st.chain.length = rest.length + 1 := by rw [hcons]; simp
  have hht : st.height = (rest.length : Int) := by omega
  have hlastget : st.chain.get? rest.length = some (lastD g rest) := by
    rw [hcons]; exact lastD_get? rest g
  have hlastht : (lastD g rest).height = (rest.length : Int) :=
    hwf.heights rest.length _ hlastget
  have hpos1 : st.height + 1 > 0 := by omega
  have htonat : (st.height + 1 - 1).toNat = rest.length := by omega
  have hbH : b.height = st.height + 1 := by rw [hb]; simp [sealBlock]
  have hbP : b.previousBlockHash = some (lastD g rest).hash := by
    rw [hb]
    simp only [sealBlock]
    rw [if_pos hpos1, htonat, hlastget]
    rfl
  have hbhash : b.hash = hashBlock b.height b.previousBlockHash b.time b.body := by
    rw [hb]; rfl
  rw [hst]
  refine ⟨?_, ⟨g, ?_, hgh, hgp, hgb⟩, ?_, ?_, ?_, ?_⟩
  · simp; omega
  · show (st.chain ++ [b]).get? 0 = some g
    rw [List.get?_append (by omega), hg0]
  · intro i bb hget
    simp only at hget
    by_cases hi : i < st.chain.length
    · rw [List.get?_append hi] at hget
      exact hwf.heights i bb hget
    · have hle : st.chain.length ≤ i := le_of_not_lt hi
      rw [List.get?_append_right hle] at hget
      have hcases : i - st.chain.length = 0 ∨ 1 ≤ i - st.chain.length := by omega
      cases hcases with
      | inl h0 =>
        rw [h0] at hget
        simp at hget
        have hieq : i = rest.length + 1 := by omega
        rw [← hget]
        rw [hbH, hht, hieq]
        push_cast
        ring
      | inr h1 =>
        rw [List.get?_eq_none.mpr (by simp; omega)] at hget
        exact absurd hget (by simp)
  · intro i prev bb hp hbb
    simp only at hp hbb
    by_cases hi : i + 1 < st.chain.length
    · rw [List.get?_append hi] at hbb
      rw [List.get?_append (by omega)] at hp
      exact hwf.links i prev bb hp hbb
    · by_cases hieq : i + 1 = st.chain.length
      · have hi' : i = rest.length := by omega
        rw [List.get?_append (by omega)] at hp
        have hprev : prev = lastD g rest := by
          rw [hi'] at hp
          rw [hlastget] at hp
          simpa using hp.symm
        have hbbeq : bb = b := by
          rw [List.get?_append_right (by omega)] at hbb
          have : i + 1 - st.chain.length = 0 := by omega
          rw [this] at hbb
          simpa using hbb.symm
        constructor
        · rw [hbbeq, hbP, hprev]
        · rw [hbbeq, hprev, hbH, hlastht, hht]
      · have : (st.chain ++ [b]).get? (i + 1) = none := by
          apply List.get?_eq_none.mpr
          simp
          omega
        rw [this] at hbb
        exact absurd hbb (by simp)
  · intro bb hmem
    simp only [List.mem_append, List.mem_singleton] at hmem
    cases hmem with
    | inl hm => exact hwf.hashes bb hm
    | inr hm => rw [hm]; exact hbhash
  · exact hval

/-- Every reachable state is well-formed. -/
theorem reachable_wf {st : ChainState} (h : Reachable st) : WF st := by
  induction h with
  | init now => exact wf_mkBlockchain now
  | step st d now b st' _ hadd ih => exact wf_step ih hadd

/-- On a well-formed state every append succeeds: the candidate is
sealed, pushed, the post-append validation is clean, and the promise
resolves with the sealed block. -/
theorem wf_addBlock_ok {st : ChainState} (hwf : WF st) (d : String) (now : Int) :
    _addBlock st d now =
      (some (Except.ok (sealBlock st d now)),
       { chain := st.chain ++ [sealBlock st d now], height := st.height + 1 }) := by
  obtain ⟨g, hg0, hgh, hgp, hgb⟩ := hwf.genesis
  obtain ⟨rest, hcons⟩ : ∃ rest, st.chain = g :: rest := by
    cases hc : st.chain with
    | nil => rw [hc] at hg0; simp at hg0
    | cons a l => rw [hc] at hg0; simp at hg0; exact ⟨l, by rw [hg0]⟩
  have hlen := hwf.lenEq
  have hlenc : st.chain.length = rest.length + 1 := by rw [hcons]; simp
  have hht : st.height = (rest.length : Int) := by omega
  have hlastget : st.chain.get? rest.length = some (lastD g rest) := by
    rw [hcons]; exact lastD_get? rest g
  have hlastht : (lastD g rest).height = (rest.length : Int) :=
    hwf.heights rest.length _ hlastget
  have hpos1 : st.height + 1 > 0 := by omega
  have htonat : (st.height + 1 - 1).toNat = rest.length := by omega
  have hbH : (sealBlock st d now).height = st.height + 1 := by simp [sealBlock]
  have hbP : (sealBlock st d now).previousBlockHash = some (lastD g rest).hash := by
    simp only [sealBlock]
    rw [if_pos hpos1, htonat, hlastget]
    rfl
  have hbOk : (sealBlock st d now).validateOk = true := by
    have hh : (sealBlock st d now).hash = hashBlock (sealBlock st d now).height
        (sealBlock st d now).previousBlockHash (sealBlock st d now).time
        (sealBlock st d now).body := rfl
    simp [Block.validateOk, hh]
  have hchecks : checksAfter (lastD g rest) (sealBlock st d now) = [] := by
    unfold checksAfter
    rw [if_neg (by rw [hbH, hlastht, hht]; simp), if_neg (by rw [hbP]; simp),
      if_pos hbOk]
    rfl
  have hgf : (if g.validateOk then ([] : List Finding) else [Finding.hashErr g.height]) ++
      validateRest g rest = [] := by
    have hv := hwf.valid
    rw [hcons] at hv
    simp only [validateChainRun] at hv
    rw [if_neg (by rw [hgh]; simp)] at hv
    exact Option.some.inj hv
  have hnewval : validateChainRun (st.chain ++ [sealBlock st d now]) = some [] := by
    rw [hcons, List.cons_append]
    simp only [validateChainRun]
    rw [if_neg (by rw [hgh]; simp)]
    rw [validateRest_append, hchecks]
    simp only [List.append_nil]
    rw [hgf]
  have hnone : ¬ (st.height + 1 > 0 ∧ st.chain.get? (st.height + 1 - 1).toNat = none) := by
    rw [htonat, hlastget]
    simp
  simp only [_addBlock]
  rw [if_neg hnone, hnewval]
  simp only []
  rw [if_pos hwf.lenEq]
  simp

/-- C7: in every ledger state reachable by initialization and any
sequence of successful appends, index 0 holds the genesis block — height
0, absent (empty) previous hash, the genesis payload — every later block
links to its physical predecessor by hash with the predecessor's height
plus one, and immediately after initialization `getChainHeight()` is
0. -/
theorem chainGenesisAndLinkageInvariant (st : ChainState) (hre : Reachable st) :
    (∃ g, st.chain.get? 0 = some g ∧ g.height = 0 ∧ g.previousBlockHash = none ∧
      g.body = genesisBody) ∧
    (∀ i prev b, st.chain.get? i = some prev → st.chain.get? (i + 1) = some b →
      b.previousBlockHash = some prev.hash ∧ b.height = prev.height + 1) ∧
    (∀ now, getChainHeight (mkBlockchain now) = 0) := by
  have hwf := reachable_wf hre
  exact ⟨hwf.genesis, hwf.links, fun now => by rw [mkBlockchain_eq]; rfl⟩

theorem chainGenesisAndLinkageInvariant_witness :
    (∃ g, (mkBlockchain 7).chain.get? 0 = some g ∧ g.height = 0 ∧
      g.previousBlockHash = none ∧ g.body = genesisBody) ∧
    (∀ i prev b, (mkBlockchain 7).chain.get? i = some prev →
      (mkBlockchain 7).chain.get? (i + 1) = some b →
      b.previousBlockHash = some prev.hash ∧ b.height = prev.height + 1) ∧
    (∀ now, getChainHeight (mkBlockchain now) = 0) :=
  chainGenesisAndLinkageInvariant (mkBlockchain 7) (Reachable.init 7)

/-- C9: every block of a reachable state stores as `hash` exactly the
content hash of its own `height`, `previousBlockHash`, `time` and `body`
(the `hash` field itself excluded from the input), and the block a
successful `_addBlock` resolves with — the only place a hash is ever
assigned — satisfies the same equation. -/
theorem sealedHashIsContentHash (st : ChainState) (hre : Reachable st) :
    (∀ b ∈ st.chain, b.hash = hashBlock b.height b.previousBlockHash b.time b.body) ∧
    (∀ d now b st', _addBlock st d now = (some (Except.ok b), st') →
      b.hash = hashBlock b.height b.previousBlockHash b.time b.body) := by
  have hwf := reachable_wf hre
  refine ⟨hwf.hashes, ?_⟩
  intro d now b st' h
  obtain ⟨_, hb, _, _⟩ := addBlock_ok_spec h
  rw [hb]; rfl

theorem sealedHashIsContentHash_witness :
    (∀ b ∈ (mkBlockchain 3).chain,
      b.hash = hashBlock b.height b.previousBlockHash b.time b.body) ∧
    (∀ d now b st', _addBlock (mkBlockchain 3) d now = (some (Except.ok b), st') →
      b.hash = hashBlock b.height b.previousBlockHash b.time b.body) :=
  sealedHashIsContentHash (mkBlockchain 3) (Reachable.init 3)

/-- A state whose cached height is out of step with the array: two
blocks but height 0, so `chain.length - height !== 1`. -/
def c2Block : Block :=
  { height := 0, body := "x", time := 0, previousBlockHash := none, hash := "h0" }

def c2State : ChainState := { chain := [c2Block, c2Block], height := 0 }

/-- C2: the height pre-check does reject the append (the promise settles
on `Block height discrepancy!`), but because the `reject` is not
followed by a `return` the executor keeps running: the cached height is
still incremented and the candidate block is still sealed and pushed,
so the ledger state IS mutated by the failed append — contrary to the
check-before-mutate contract. -/
theorem addBlockHeightMismatchStillMutates :
    (_addBlock c2State "d" 5).1 = some (Except.error AddErr.heightDiscrepancy) ∧
    c2State.chain.length = 2 ∧ c2State.height = 0 ∧
    (_addBlock c2State "d" 5).2.chain.length = 3 ∧
    (_addBlock c2State "d" 5).2.height = 1 :=
  ⟨rfl, rfl, rfl, rfl, rfl⟩

/-- C4: a submission whose challenge embeds an issue timestamp 300 or
more seconds in the past is rejected — with the combined literal
`Error: Timed out or not verified.` — for EVERY verification function,
i.e. regardless of signature validity and without the short-circuited
`bitcoinMessage.verify` ever being consulted; the state is returned
untouched. -/
theorem submitStarExpiredRejects (st : ChainState)
    (verify : String → String → String → Bool)
    (address message signature star : String) (now mt : Int)
    (hmt : messageTime message = some mt) (hexp : 300 ≤ now - mt) :
    submitStar st verify address message signature star now =
      (some (Except.error SubmitErr.timedOutOrNotVerified), st) := by
  have hlt : ¬ (now - mt < 300) := by omega
  simp [submitStar, hmt, hlt]

theorem submitStarExpiredRejects_witness :
    messageTime "a:100:starRegistry" = some 100 ∧ (300 : Int) ≤ 400 - 100 ∧
    submitStar (mkBlockchain 100) (fun _ _ _ => true) "a" "a:100:starRegistry"
      "sig" "st" 400 =
      (some (Except.error SubmitErr.timedOutOrNotVerified), mkBlockchain 100) :=
  ⟨by decide, by decide,
    submitStarExpiredRejects (mkBlockchain 100) (fun _ _ _ => true) "a"
      "a:100:starRegistry" "sig" "st" 400 100 (by decide) (by decide)⟩

/-- C5: a submission with a fresh challenge whose signature does not
verify is rejected — with the combined literal
`Error: Timed out or not verified.` — and no block is appended: the
chain array and `getChainHeight()` are unchanged. -/
theorem submitStarBadSigRejects (st : ChainState)
    (verify : String → String → String → Bool)
    (address message signature star : String) (now mt : Int)
    (hmt : messageTime message = some mt) (hfresh : now - mt < 300)
    (hsig : verify message address signature = false) :
    submitStar st verify address message signature star now =
      (some (Except.error SubmitErr.timedOutOrNotVerified), st) ∧
    (submitStar st verify address message signature star now).2.chain = st.chain ∧
    getChainHeight (submitStar st verify address message signature star now).2 =
      getChainHeight st := by
  have h1 : submitStar st verify address message signature star now =
      (some (Except.error SubmitErr.timedOutOrNotVerified), st) := by
    simp [submitStar, hmt, hfresh, hsig]
  exact ⟨h1, by rw [h1], by rw [h1]⟩

theorem submitStarBadSigRejects_witness :
    messageTime "a:100:starRegistry" = some 100 ∧ ((150 : Int) - 100 < 300) ∧
    submitStar (mkBlockchain 100) (fun _ _ _ => false) "a" "a:100:starRegistry"
      "sig" "st" 150 =
      (some (Except.error SubmitErr.timedOutOrNotVerified), mkBlockchain 100) ∧
    (submitStar (mkBlockchain 100) (fun _ _ _ => false) "a" "a:100:starRegistry"
      "sig" "st" 150).2.chain = (mkBlockchain 100).chain ∧
    getChainHeight (submitStar (mkBlockchain 100) (fun _ _ _ => false) "a"
      "a:100:starRegistry" "sig" "st" 150).2 = getChainHeight (mkBlockchain 100) := by
  refine ⟨by decide, by decide, ?_⟩
  exact submitStarBadSigRejects (mkBlockchain 100) (fun _ _ _ => false) "a"
    "a:100:starRegistry" "sig" "st" 150 100 (by decide) (by decide) rfl

/-- C1: on a reachable ledger state, a submission whose challenge is
less than 300 seconds old and whose signature verifies is accepted: a
block whose body encodes the payload with `owner` the address and
`star` the submitted star data is sealed, appended, and returned in the
resolved outcome; moreover, against that reachable state every
submission — any arguments, any verification function — settles, and on
exactly one of the accepted (Block) or rejected (error) outcomes: the
unconditional late `reject` is a no-op on the already settled
promise. -/
theorem submitStarAcceptsFreshValid (st : ChainState)
    (verify : String → String → String → Bool)
    (address message signature star : String) (now mt : Int)
    (hre : Reachable st) (hmt : messageTime message = some mt)
    (hfresh : now - mt < 300) (hsig : verify message address signature = true) :
    (∃ blk, submitStar st verify address message signature star now =
        (some (Except.ok blk), { chain := st.chain ++ [blk], height := st.height + 1 }) ∧
      blk.body = encode (BlockData.starData address star)) ∧
    (∀ verify2 a2 m2 s2 star2 n2,
      (∃ b, (submitStar st verify2 a2 m2 s2 star2 n2).1 = some (Except.ok b)) ↔
      ¬ ∃ e, (submitStar st verify2 a2 m2 s2 star2 n2).1 = some (Except.error e)) := by
  constructor
  · refine ⟨sealBlock st (encode (BlockData.starData address star)) now, ?_, rfl⟩
    have hadd := wf_addBlock_ok (reachable_wf hre)
      (encode (BlockData.starData address star)) now
    simp only [submitStar, hmt, hfresh, hsig]
    rw [hadd]
    simp
  · intro verify2 a2 m2 s2 star2 n2
    have hne : (submitStar st verify2 a2 m2 s2 star2 n2).1 ≠ none := by
      simp only [submitStar]
      split
      · rw [wf_addBlock_ok (reachable_wf hre) (encode (BlockData.starData a2 star2)) n2]
        simp
      · simp
    cases hres : (submitStar st verify2 a2 m2 s2 star2 n2).1 with
    | none => exact absurd hres hne
    | some r => cases r <;> simp

theorem submitStarAcceptsFreshValid_witness :
    (∃ blk, submitStar (mkBlockchain 100) (fun _ _ _ => true) "a"
        "a:100:starRegistry" "sig" "st" 150 =
        (some (Except.ok blk),
          { chain := (mkBlockchain 100).chain ++ [blk], height := (mkBlockchain 100).height + 1 }) ∧
      blk.body = encode (BlockData.starData "a" "st")) ∧
    (∀ verify2 a2 m2 s2 star2 n2,
      (∃ b, (submitStar (mkBlockchain 100) verify2 a2 m2 s2 star2 n2).1 = some (Except.ok b)) ↔
      ¬ ∃ e, (submitStar (mkBlockchain 100) verify2 a2 m2 s2 star2 n2).1 =
        some (Except.error e)) :=
  submitStarAcceptsFreshValid (mkBlockchain 100) (fun _ _ _ => true) "a"
    "a:100:starRegistry" "sig" "st" 150 100 (Reachable.init 100) (by decide)
    (by decide) rfl

/-- A one-block state whose stored genesis hash does not match its
recomputed content hash: the post-append validation then reports a
tamper finding. -/
def c6Block : Block :=
  { height := 0, body := genesisBody, time := 0, previousBlockHash := none,
    hash := "tampered" }

def c6State : ChainState := { chain := [c6Block], height := 0 }

/-- C6: when an append passes the height pre-check but the immediate
whole-chain re-validation reports a non-empty error list, the freshly
sealed block stays committed in the pushed sequence — there is no
rollback — and the append settles on the rejection carrying that full
error list. -/
theorem addBlockValidationFailedCommits (st : ChainState) (d : String) (now : Int)
    (errs : List Finding)
    (hOk : (st.chain.length : Int) = st.height + 1)
    (hv : validateChainRun (st.chain ++ [sealBlock st d now]) = some errs)
    (hne : errs ≠ []) :
    _addBlock st d now =
      (some (Except.error (AddErr.validationFailed errs)),
       { chain := st.chain ++ [sealBlock st d now], height := st.height + 1 }) := by
  have hnone : ¬ (st.height + 1 > 0 ∧
      st.chain.get? (st.height + 1 - 1).toNat = none) := by
    rintro ⟨hpos, hgetnone⟩
    rw [List.get?_eq_none] at hgetnone
    omega
  simp only [_addBlock]
  rw [if_neg hnone, hv]
  simp only []
  rw [if_pos hOk, if_pos (List.length_pos.mpr hne)]

theorem addBlockValidationFailedCommits_witness :
    ((c6State.chain.length : Int) = c6State.height + 1) ∧
    validateChainRun (c6State.chain ++ [sealBlock c6State "d" 9]) =
      some [Finding.hashErr 0] ∧
    ([Finding.hashErr 0] : List Finding) ≠ [] ∧
    _addBlock c6State "d" 9 =
      (some (Except.error (AddErr.validationFailed [Finding.hashErr 0])),
       { chain := c6State.chain ++ [sealBlock c6State "d" 9],
         height := c6State.height + 1 }) :=
  ⟨by decide, rfl, by decide,
    addBlockValidationFailedCommits c6State "d" 9 [Finding.hashErr 0] (by decide)
      rfl (by decide)⟩

theorem getStars_foldl (address : String) (l : List Block) :
    ∀ acc : List BlockData,
      l.foldl
        (fun stars b =>
          match b.getBData with
          | some body => if body.owner = some address then stars ++ [body] else stars
          | none => stars) acc =
      acc ++ (l.filter (fun b => b.height != 0)).filterMap
        (fun b =>
          match decode b.body with
          | some d => if d.owner = some address then some d else none
          | none => none) := by
  induction l with
  | nil => intro acc; simp
  | cons b l ih =>
    intro acc
    simp only [List.foldl_cons]
    by_cases hh : b.height = 0
    · rw [show b.getBData = none from by simp [Block.getBData, hh]]
      rw [ih acc]
      rw [List.filter_cons_of_neg (by simp [hh])]
    · have hbd : b.getBData = decode b.body := by simp [Block.getBData, hh]
      rw [List.filter_cons_of_pos (by simp [hh])]
      cases hdec : decode b.body with
      | none =>
        rw [hbd, hdec, ih acc]
        rw [List.filterMap_cons]
        simp [hdec]
      | some d =>
        simp only [hbd, hdec]
        by_cases howner : d.owner = some address
        · rw [if_pos howner, ih (acc ++ [d])]
          rw [List.filterMap_cons]
          simp [hdec, howner]
        · rw [if_neg howner, ih acc]
          rw [List.filterMap_cons]
          simp [hdec, howner]

/-- C3: the owner lookup returns exactly the decoded payloads of the
non-genesis blocks whose `owner` field equals the queried address, in
chain order; a block whose payload fails to decode is skipped without
propagating the failure, and an address owning no blocks yields the
empty sequence (all by equality with the claim-side definition, which
yields `[]` whenever no block passes its filter). -/
theorem getStarsMatchesClaimedOwnerLookup (st : ChainState) (address : String) :
    getStarsByWalletAddress st address = getPayloadsByOwnerClaim st.chain address := by
  unfold getStarsByWalletAddress getPayloadsByOwnerClaim
  simpa using getStars_foldl address st.chain []

theorem filterHead_some {α : Type} (p : α → Bool) (l : List α) (b : α) :
    (l.filter p).head? = some b ↔
    ∃ l1 l2, l = l1 ++ b :: l2 ∧ p b = true ∧ ∀ c ∈ l1, p c = false := by
  induction l with
  | nil =>
    simp only [List.filter_nil, List.head?_nil]
    constructor
    · intro h; exact absurd h (by simp)
    · rintro ⟨l1, l2, hd, -, -⟩
      exact absurd hd.symm (by simp)
  | cons x l ih =>
    cases hp : p x with
    | true =>
      rw [List.filter_cons_of_pos hp, List.head?_cons]
      constructor
      · intro hx
        have hxb : x = b := by simpa using hx
        exact ⟨[], l, by rw [hxb]; rfl, by rw [← hxb]; exact hp, by simp⟩
      · rintro ⟨l1, l2, hd, hpb, hfail⟩
        cases l1 with
        | nil =>
          simp only [List.nil_append] at hd
          injection hd with h1 h2
          rw [h1]
        | cons c l1' =>
          rw [List.cons_append] at hd
          injection hd with h1 h2
          have hfc := hfail c (by simp)
          rw [← h1, hp] at hfc
          exact absurd hfc (by simp)
    | false =>
      rw [List.filter_cons_of_neg (by simp [hp]), ih]
      constructor
      · rintro ⟨l1, l2, hd, hpb, hfail⟩
        refine ⟨x :: l1, l2, by rw [List.cons_append, hd], hpb, ?_⟩
        intro c hc
        rcases List.mem_cons.mp hc with hcx | hcl
        · rw [hcx]; exact hp
        · exact hfail c hcl
      · rintro ⟨l1, l2, hd, hpb, hfail⟩
        cases l1 with
        | nil =>
          simp only [List.nil_append] at hd
          injection hd with h1 h2
          rw [← h1, hp] at hpb
          exact absurd hpb (by simp)
        | cons c l1' =>
          rw [List.cons_append] at hd
          injection hd with h1 h2
          exact ⟨l1', l2, h2, hpb, fun c' hc' => hfail c' (by simp [hc'])⟩

theorem filterHead_none {α : Type} (p : α → Bool) (l : List α) :
    (l.filter p).head? = none ↔ ∀ c ∈ l, p c = false := by
  simp [List.head?_eq_none_iff, List.filter_eq_nil]

/-- C10: each lookup selects by the block's own stored field — `hash`
for `getBlockByHash`, the `height` field (not the array position) for
`getBlockByHeight` — resolving the first block in chain order whose
field equals the argument, and rejecting with `false` (NotFound)
exactly when no block matches; both lookups are pure reads and return
no modified state. -/
theorem lookupsSelectFirstByField (st : ChainState) (h0 : String) (n : Int) :
    (∀ b, getBlockByHash st h0 = Except.ok b ↔
      ∃ l1 l2, st.chain = l1 ++ b :: l2 ∧ b.hash = h0 ∧ ∀ c ∈ l1, c.hash ≠ h0) ∧
    (getBlockByHash st h0 = Except.error false ↔ ∀ b ∈ st.chain, b.hash ≠ h0) ∧
    (∀ b, getBlockByHeight st n = Except.ok b ↔
      ∃ l1 l2, st.chain = l1 ++ b :: l2 ∧ b.height = n ∧ ∀ c ∈ l1, c.height ≠ n) ∧
    (getBlockByHeight st n = Except.error false ↔ ∀ b ∈ st.chain, b.height ≠ n) := by
  have hash_bridge : ∀ b, getBlockByHash st h0 = Except.ok b ↔
      (st.chain.filter (fun c => c.hash == h0)).head? = some b := by
    intro b
    unfold getBlockByHash
    cases hh : (st.chain.filter (fun c => c.hash == h0)).head? <;> simp
  have hash_err : getBlockByHash st h0 = Except.error false ↔
      (st.chain.filter (fun c => c.hash == h0)).head? = none := by
    unfold getBlockByHash
    cases hh : (st.chain.filter (fun c => c.hash == h0)).head? <;> simp
  have height_bridge : ∀ b, getBlockByHeight st n = Except.ok b ↔
      (st.chain.filter (fun c => c.height == n)).head? = some b := by
    intro b
    unfold getBlockByHeight
    cases hh : (st.chain.filter (fun c => c.height == n)).head? <;> simp
  have height_err : getBlockByHeight st n = Except.error false ↔
      (st.chain.filter (fun c => c.height == n)).head? = none := by
    unfold getBlockByHeight
    cases hh : (st.chain.filter (fun c => c.height == n)).head? <;> simp
  refine ⟨?_, ?_, ?_, ?_⟩
  · intro b
    rw [hash_bridge b, filterHead_some]
    constructor
    · rintro ⟨l1, l2, hd, hpb, hf⟩
      exact ⟨l1, l2, hd, by simpa using hpb, fun c hc => by simpa using hf c hc⟩
    · rintro ⟨l1, l2, hd, hpb, hf⟩
      exact ⟨l1, l2, hd, by simpa using hpb, fun c hc => by simpa using hf c hc⟩
  · rw [hash_err, filterHead_none]
    constructor
    · intro h b hb; simpa using h b hb
    · intro h b hb; simpa using h b hb
  · intro b
    rw [height_bridge b, filterHead_some]
    constructor
    · rintro ⟨l1, l2, hd, hpb, hf⟩
      exact ⟨l1, l2, hd, by simpa using hpb, fun c hc => by simpa using hf c hc⟩
    · rintro ⟨l1, l2, hd, hpb, hf⟩
      exact ⟨l1, l2, hd, by simpa using hpb, fun c hc => by simpa using hf c hc⟩
  · rw [height_err, filterHead_none]
    constructor
    · intro h b hb; simpa using h b hb
    · intro h b hb; simpa using h b hb

/-- A single-block chain whose stored hash differs from the recomputed
content hash of its fields. -/
def c8Block : Block :=
  { height := 0, body := genesisBody, time := 0, previousBlockHash := none,
    hash := "tampered" }

/-- C8 counterexample: the validator also runs the tamper check at
index 0, while the claim attributes findings only to indices `i > 0`;
on this one-block tampered chain the code returns a finding but the
claim's described output is empty. -/
theorem validateChainClaimCounterexample :
    validateChainRun [c8Block] = some [Finding.hashErr 0] ∧
    claimedFindings [c8Block] = [] ∧
    ¬ (validateChainRun [c8Block] = some (claimedFindings [c8Block])) := by
  refine ⟨rfl, rfl, ?_⟩
  rw [show claimedFindings [c8Block] = [] from rfl,
    show validateChainRun [c8Block] = some [Finding.hashErr 0] from rfl]
  simp

theorem amendedRest (l : List Block) :
    ∀ (p : Block) (k : Nat) (chain : List Block),
      (∀ i, chain.get? (k + i) = (p :: l).get? i) →
      indexFindingsFrom (amendedBlockFindings chain) (k + 1) l.length =
        validateRest p l := by
  induction l with
  | nil => intro p k chain hsuf; rfl
  | cons b l ih =>
    intro p k chain hsuf
    have h0 : chain.get? k = some p := by simpa using hsuf 0
    have h1 : chain.get? (k + 1) = some b := by simpa using hsuf 1
    have hfind : amendedBlockFindings chain (k + 1) = checksAfter p b := by
      simp only [amendedBlockFindings, h1]
      rw [if_pos (Nat.succ_pos k), Nat.add_sub_cancel, h0]
      simp only [checksAfter, Block.validateOk, beq_iff_eq]
    have hsuf' : ∀ i, chain.get? (k + 1 + i) = (b :: l).get? i := by
      intro i
      have hx := hsuf (i + 1)
      rw [show k + (i + 1) = k + 1 + i by omega] at hx
      simpa using hx
    simp only [List.length_cons, indexFindingsFrom, validateRest]
    rw [hfind, ih b (k + 1) chain hsuf']

/-- C8 amended: the validator performs a single, non-short-circuiting,
non-mutating pass and resolves with the complete accumulated finding
list, but the height-discontinuity and linkage findings are guarded by
the block's own height being positive — not by the index — the tamper
(recomputed-hash) check runs at every index including 0, and on a chain
whose first block has positive height the validation never settles
(the internal throw is followed by a `reject` call on an unbound
identifier), so no finding list is produced at all on that path. -/
theorem validateChainAmendedCharacterization (chain : List Block) :
    validateChainRun chain = amendedFindings chain := by
  cases chain with
  | nil => rfl
  | cons g rest =>
    by_cases hg : g.height > 0
    · simp [validateChainRun, amendedFindings, hg]
    · simp only [validateChainRun, amendedFindings, List.head?_cons]
      rw [if_neg hg, if_neg hg]
      congr 1
      have hsuf : ∀ i, (g :: rest).get? (0 + i) = (g :: rest).get? i := by
        intro i; rw [Nat.zero_add]
      have hrest := amendedRest rest g 0 (g :: rest) hsuf
      have hf0 : amendedBlockFindings (g :: rest) 0 =
          (if g.validateOk then [] else [Finding.hashErr g.height]) := by
        simp only [amendedBlockFindings, List.get?_cons_zero]
        rw [if_neg (lt_irrefl 0)]
        simp only [List.nil_append, Block.validateOk, beq_iff_eq]
      simp only [List.length_cons, indexFindingsFrom]
      rw [hf0, hrest]
